import Mathlib

/-!
Verification of the memes-quest image-indexing service.

The development shallowly embeds the reconciliation engine of
`app/main.py` (`index_images`, `search_images`) and the vector-store
adapter of `app/services/milvus_service.py` (`get_all_file_paths`,
`_get_all_entities_iter`, `delete_vectors_by_file_paths`) as pure Lean
functions.  Python strings are Lean `String`s, Python sets are `Finset
String`, fallible external calls (the embedding provider, the Milvus
client) are parameters returning `Except Unit _`, and Python truthiness
of a string/list is the explicit nonemptiness test.
-/

/-! ## Character-level embedding of the Python string operations

Lean's builtin `String.toLower`/`String.startsWith`/`String.endsWith`
work on byte positions and do not reduce in the kernel, so the Python
string operations used by the source are embedded over `String.data`
(the character list). -/

/-- Python `s.lower()` (ASCII case mapping, which covers every string
the source applies it to). -/
def strLower (s : String) : String := ⟨s.data.map Char.toLower⟩

/-- Python `s.endswith(suf)`. -/
def strEndsWith (s suf : String) : Bool := suf.data.isSuffixOf s.data

/-- Python `s.startswith(p)`. -/
def strStartsWith (s p : String) : Bool := p.data.isPrefixOf s.data

/-- Python `s.strip(os.path.sep)` on the character list: drops leading
and trailing `/` characters. -/
def stripSepChars (cs : List Char) : List Char :=
  ((cs.dropWhile (· = '/')).reverse.dropWhile (· = '/')).reverse

/-- Python `category.strip(os.path.sep)` with `os.path.sep = "/"`. -/
def stripSep (s : String) : String := ⟨stripSepChars s.data⟩

/-- Python truthiness of an optional string (`None` and `""` are falsy). -/
def truthyOpt (o : Option String) : Bool :=
  match o with
  | some s => !s.data.isEmpty
  | none => false

/-! ## Reconciliation set differences (`app/main.py` lines 93-94) -/

/-- `files_to_add_relative_paths = local_image_relative_paths - indexed_file_paths_in_milvus`
(`app/main.py` line 93). -/
def toAdd (localS indexedS : Finset String) : Finset String :=
  localS \ indexedS

/-- `files_to_delete_relative_paths = indexed_file_paths_in_milvus - local_image_relative_paths`
(`app/main.py` line 94). -/
def toDelete (localS indexedS : Finset String) : Finset String :=
  indexedS \ localS

/-- The effect of a reconciliation run on the indexed set: the paths of
`toDelete` are removed from the store and the paths of `toAdd` are
inserted (`app/main.py` lines 105-139, assuming both bulk calls
succeed). -/
def applyRecon (localS indexedS : Finset String) : Finset String :=
  (indexedS \ toDelete localS indexedS) ∪ toAdd localS indexedS

lemma applyRecon_eq_local (localS indexedS : Finset String) :
    applyRecon localS indexedS = localS := by
  unfold applyRecon toAdd toDelete
  ext p
  simp only [Finset.mem_union, Finset.mem_sdiff]
  tauto

/-- **C1**: for every pair of a local file set and an indexed file set,
`to_add = local − indexed` and `to_delete = indexed − local` are
disjoint, and applying them to the indexed set (removing `to_delete`,
adding `to_add`) yields exactly the local set; in particular, for local
files `{"cats/a.png", "dogs/b.jpg"}` and indexed set
`{"dogs/b.jpg", "dogs/c.gif"}`, `to_add = {"cats/a.png"}` and
`to_delete = {"dogs/c.gif"}`. -/
theorem reconciliation_correct (localS indexedS : Finset String) :
    Disjoint (toAdd localS indexedS) (toDelete localS indexedS) ∧
    applyRecon localS indexedS = localS ∧
    toAdd {"cats/a.png", "dogs/b.jpg"} {"dogs/b.jpg", "dogs/c.gif"}
      = {"cats/a.png"} ∧
    toDelete {"cats/a.png", "dogs/b.jpg"} {"dogs/b.jpg", "dogs/c.gif"}
      = {"dogs/c.gif"} := by
  refine ⟨?_, applyRecon_eq_local localS indexedS, by decide, by decide⟩
  exact disjoint_sdiff_sdiff

/-- **C2**: running the reconciliation twice over the same scope with no
filesystem change in between, the first run's inserts and deletes being
fully applied to the store, yields zero files to add and zero files to
delete on the second run. -/
theorem reconciliation_idempotent (localS indexedS : Finset String) :
    toAdd localS (applyRecon localS indexedS) = ∅ ∧
    toDelete localS (applyRecon localS indexedS) = ∅ := by
  rw [applyRecon_eq_local]
  exact ⟨Finset.sdiff_self localS, Finset.sdiff_self localS⟩

/-! ## Directory walk and local file set (`app/main.py` lines 54-89) -/

/-- One file reported by `os.walk`: `rel` is
`os.path.relpath(os.path.join(root, file), IMAGE_DIR)` and `name` is the
bare file name `file` on which the extension test runs. -/
structure WalkedFile where
  rel : String
  name : String
deriving DecidableEq

/-- `file.lower().endswith(('.png', '.jpg', '.jpeg', '.gif', '.bmp'))`
(`app/main.py` line 78). -/
def isImageFile (name : String) : Bool :=
  strEndsWith (strLower name) ".png" || strEndsWith (strLower name) ".jpg" ||
    strEndsWith (strLower name) ".jpeg" || strEndsWith (strLower name) ".gif" ||
    strEndsWith (strLower name) ".bmp"

/-- `milvus_category_prefix` (`app/main.py` lines 54-62): `None` when no
category or an empty (falsy) category string is given, otherwise
`category.strip(os.path.sep) + os.path.sep`. -/
def milvusCategoryPfx (category : Option String) : Option String :=
  match category with
  | none => none
  | some c => if c.data.isEmpty then none else some (stripSep c ++ "/")

/-- `local_image_relative_paths` (`app/main.py` lines 73-89): the walked
files whose name passes the extension test and — when a truthy category
was given — whose relative path starts with `milvus_category_prefix`. -/
def localFileSet (category : Option String) (walked : List WalkedFile) : Finset String :=
  ((walked.filter fun f =>
      isImageFile f.name &&
        (match category with
         | some c =>
            if c.data.isEmpty then true
            else strStartsWith f.rel (stripSep c ++ "/")
         | none => true)).map (fun f => f.rel)).toFinset

/-! ## Indexed file set (`app/services/milvus_service.py` lines 82-98) -/

/-- One record returned by the store scan with
`output_fields=["file_path"]`; `entity.get('file_path')` may be absent. -/
structure Entity where
  file_path : Option String
deriving DecidableEq

/-- The collection loop of `get_all_file_paths`
(`app/services/milvus_service.py` lines 87-94): keep every truthy
`file_path`, restricted to those starting with `category_prefix` when
that argument is truthy. -/
def collectStep (catPre : Option String) (acc : Finset String) (e : Entity) :
    Finset String :=
  match e.file_path with
  | some p =>
      if !p.data.isEmpty then
        if truthyOpt catPre then
          if strStartsWith p (catPre.getD "") then insert p acc else acc
        else insert p acc
      else acc
  | none => acc

/-- The body of `get_all_file_paths` folded over the scanned entities. -/
def collectPaths (catPre : Option String) (entities : List Entity) : Finset String :=
  entities.foldl (collectStep catPre) ∅

/-- The indexed file set retrieved by `index_images` (`app/main.py`
line 67): `get_all_file_paths(category_prefix=milvus_category_prefix)`
over the stored entities. -/
def indexedFileSet (category : Option String) (stored : List Entity) : Finset String :=
  collectPaths (milvusCategoryPfx category) stored

/-- **C10**: extension recognition lowercases the file name before the
suffix test, so it depends only on the lowercased name and `"A.PNG"` is
recognized, while the path collected into the local file set is the
walked file's relative path itself, with its original case unchanged. -/
theorem extension_case_insensitive :
    (∀ n n', strLower n = strLower n' → isImageFile n = isImageFile n') ∧
    isImageFile "A.PNG" = true ∧
    (∀ category files p, p ∈ localFileSet category files →
       ∃ f, f ∈ files ∧ f.rel = p ∧ isImageFile f.name = true) := by
  refine ⟨?_, by decide, ?_⟩
  · intro n n' h
    unfold isImageFile
    rw [h]
  · intro category files p hp
    unfold localFileSet at hp
    rw [List.mem_toFinset, List.mem_map] at hp
    obtain ⟨f, hf, hrel⟩ := hp
    rw [List.mem_filter] at hf
    have hconj := hf.2
    simp only [Bool.and_eq_true] at hconj
    exact ⟨f, hf.1, hrel, hconj.1⟩

/-- Witness for **C10** at concrete inputs: `"A.PNG"` and `"a.png"` are
recognized alike, and the path collected for the walked file
`cats/A.PNG` is `cats/A.PNG` itself. -/
theorem extension_case_insensitive_witness :
    isImageFile "A.PNG" = isImageFile "a.png" ∧
    isImageFile "A.PNG" = true ∧
    (∃ f, f ∈ [WalkedFile.mk "cats/A.PNG" "A.PNG"] ∧ f.rel = "cats/A.PNG" ∧
       isImageFile f.name = true) :=
  ⟨extension_case_insensitive.1 "A.PNG" "a.png" (by decide),
   extension_case_insensitive.2.1,
   extension_case_insensitive.2.2 none [WalkedFile.mk "cats/A.PNG" "A.PNG"]
     "cats/A.PNG" (by decide)⟩

/-- **C3** fails on the code: a category consisting only of path
separators is *not* treated as if no category were given — with one
walked file `a.png` and one stored record `a.png`, the category `"/"`
yields an empty local set and an empty indexed set, while the
no-category run sees both. -/
theorem category_all_sep_counterexample :
    ¬ (localFileSet (some "/") [⟨"a.png", "a.png"⟩] =
         localFileSet none [⟨"a.png", "a.png"⟩] ∧
       indexedFileSet (some "/") [⟨some "a.png"⟩] =
         indexedFileSet none [⟨some "a.png"⟩]) := by decide

/-- **C3 amended**: an empty-string category is treated exactly as no
category (same local file set, same indexed file set); an all-separator
category, however, yields the store prefix `"/"`, so the local file set
keeps only walked paths starting with `"/"` and the indexed file set is
the scan restricted to stored paths starting with `"/"` — an empty scope
for relative paths, not the whole tree. -/
theorem category_empty_or_all_sep (c : String) (files : List WalkedFile)
    (stored : List Entity) (hc : c ≠ "") (hs : stripSep c = "") :
    localFileSet (some "") files = localFileSet none files ∧
    indexedFileSet (some "") stored = indexedFileSet none stored ∧
    milvusCategoryPfx (some c) = some "/" ∧
    localFileSet (some c) files =
      ((files.filter fun f => isImageFile f.name && strStartsWith f.rel "/").map
        (fun f => f.rel)).toFinset ∧
    indexedFileSet (some c) stored = collectPaths (some "/") stored := by
  have hdata : c.data ≠ [] := by
    intro h
    apply hc
    cases c with
    | mk cs => cases h; rfl
  have hemp : c.data.isEmpty = false := by
    cases hd : c.data with
    | nil => exact absurd hd hdata
    | cons x xs => rfl
  have hpfx : milvusCategoryPfx (some c) = some "/" := by
    simp only [milvusCategoryPfx, hemp, Bool.false_eq_true, if_false, hs]
    decide
  refine ⟨rfl, rfl, hpfx, ?_, ?_⟩
  · have hpre : stripSep c ++ "/" = "/" := by rw [hs]; decide
    simp only [localFileSet, hemp, Bool.false_eq_true, if_false, hpre]
  · unfold indexedFileSet
    rw [hpfx]

/-- Witness for **C3 amended** at the all-separator category `"/"` with
one walked file and one stored record. -/
theorem category_empty_or_all_sep_witness :
    ("/" : String) ≠ "" ∧ stripSep "/" = "" ∧
    milvusCategoryPfx (some "/") = some "/" ∧
    localFileSet (some "/") [⟨"a.png", "a.png"⟩] =
      (([WalkedFile.mk "a.png" "a.png"].filter
        (fun f => isImageFile f.name && strStartsWith f.rel "/")).map
          (fun f => f.rel)).toFinset :=
  ⟨by decide, by decide,
   (category_empty_or_all_sep "/" [] [] (by decide) (by decide)).2.2.1,
   (category_empty_or_all_sep "/" [⟨"a.png", "a.png"⟩] [] (by decide)
     (by decide)).2.2.2.1⟩

/-! ## Bulk scan pagination (`app/services/milvus_service.py` lines 47-98)

The Milvus client is abstracted as a `query` function taking the `limit`
and `offset` arguments of `self.client.query` and returning either the
page of entities or an exception, plus the `total` row count reported by
`count_entities` (which itself never raises: it returns 0 on failure). -/

/-- The `while fetched_count < total_entities` loop of
`_get_all_entities_iter` (`milvus_service.py` lines 64-78): query a page
of `batch_size = 1000` rows at the current offset, stop on an empty
page, extend, stop on a short page, otherwise continue; a raised
exception propagates to the caller. -/
def iterLoop (query : Nat → Nat → Except Unit (List Entity)) (total : Nat)
    (fetched offset : Nat) (acc : List Entity) : Except Unit (List Entity) :=
  if h : fetched < total then
    match query 1000 offset with
    | .error e => .error e
    | .ok results =>
      if results.isEmpty then .ok acc
      else if hlen : results.length < 1000 then .ok (acc ++ results)
      else
        iterLoop query total (fetched + results.length) (offset + results.length)
          (acc ++ results)
  else .ok acc
termination_by total - fetched
decreasing_by
  have : 1000 ≤ results.length := Nat.not_lt.mp hlen
  omega

/-- `_get_all_entities_iter` (`milvus_service.py` lines 47-79): returns
`[]` immediately when the reported count is 0, otherwise runs the
pagination loop from offset 0 with an empty accumulator. -/
def getAllEntitiesIter (query : Nat → Nat → Except Unit (List Entity))
    (total : Nat) : Except Unit (List Entity) :=
  if total = 0 then .ok [] else iterLoop query total 0 0 []

/-- `get_all_file_paths` (`milvus_service.py` lines 82-98): the whole
body is wrapped in `try/except`; the scan runs to completion before the
collection loop starts, so on any exception the set collected so far is
the empty set, and that set is returned. -/
def getAllFilePaths (query : Nat → Nat → Except Unit (List Entity))
    (total : Nat) (catPre : Option String) : Finset String :=
  match getAllEntitiesIter query total with
  | .error _ => ∅
  | .ok entities => collectPaths catPre entities

/-- A store holding the snapshot `store` answers `query(limit, offset)`
with the corresponding page and reports `store.length` as its count. -/
def pageQuery (store : List Entity) : Nat → Nat → Except Unit (List Entity) :=
  fun limit offset => .ok ((store.drop offset).take limit)


lemma iterLoop_pageQuery (store : List Entity) :
    ∀ k offset acc, store.length - offset = k → offset ≤ store.length →
      iterLoop (pageQuery store) store.length offset offset acc =
        .ok (acc ++ store.drop offset) := by
  intro k
  induction k using Nat.strong_induction_on with
  | _ k ih =>
    intro offset acc hk hle
    rw [iterLoop]
    by_cases hlt : offset < store.length
    · rw [dif_pos hlt]
      simp only [pageQuery]
      have hlendrop : (store.drop offset).length = store.length - offset :=
        List.length_drop offset store
      have hne : ((store.drop offset).take 1000).isEmpty = false := by
        rw [Bool.eq_false_iff]
        intro habs
        rw [List.isEmpty_iff, List.take_eq_nil_iff] at habs
        rcases habs with h1000 | hdropnil
        · omega
        · rw [List.drop_eq_nil_iff] at hdropnil
          omega
      simp only [hne, Bool.false_eq_true, if_false]
      by_cases hshort : ((store.drop offset).take 1000).length < 1000
      · rw [dif_pos hshort]
        have hlen2 : (store.drop offset).length ≤ 1000 := by
          rw [List.length_take] at hshort
          omega
        rw [List.take_of_length_le hlen2]
      · rw [dif_neg hshort]
        have hlen1000 : ((store.drop offset).take 1000).length = 1000 := by
          rw [List.length_take] at hshort ⊢
          omega
        have hbig : 1000 ≤ store.length - offset := by
          rw [List.length_take] at hlen1000
          omega
        rw [hlen1000]
        have hrec := ih (store.length - (offset + 1000)) (by omega) (offset + 1000)
          (acc ++ (store.drop offset).take 1000) rfl (by omega)
        rw [hrec, List.append_assoc]
        have hdd : (store.drop offset).drop 1000 = store.drop (offset + 1000) :=
          List.drop_drop 1000 offset store
        rw [← hdd, List.take_append_drop]
    · rw [dif_neg hlt]
      have heq : offset = store.length := by omega
      subst heq
      rw [List.drop_length, List.append_nil]

/-- The path (if any) that one scanned entity contributes to
`get_all_file_paths`' result set. -/
def keptPath (catPre : Option String) (e : Entity) : Option String :=
  match e.file_path with
  | some p =>
      if !p.data.isEmpty then
        if truthyOpt catPre then
          if strStartsWith p (catPre.getD "") then some p else none
        else some p
      else none
  | none => none

lemma collectStep_eq (catPre : Option String) (acc : Finset String) (e : Entity) :
    collectStep catPre acc e =
      match keptPath catPre e with
      | some p => insert p acc
      | none => acc := by
  rcases e with ⟨_ | p⟩
  · rfl
  · dsimp only [collectStep, keptPath]
    split_ifs <;> rfl

lemma foldl_collectStep (catPre : Option String) :
    ∀ (entities : List Entity) (acc : Finset String),
      entities.foldl (collectStep catPre) acc =
        acc ∪ (entities.filterMap (keptPath catPre)).toFinset := by
  intro entities
  induction entities with
  | nil => intro acc; simp
  | cons e es ih =>
    intro acc
    rw [List.foldl_cons, collectStep_eq, List.filterMap_cons]
    cases hk : keptPath catPre e with
    | none => simpa using ih acc
    | some p =>
      rw [ih]
      simp [List.toFinset_cons, Finset.insert_union, Finset.union_insert]

lemma collectPaths_filterMap (catPre : Option String) (entities : List Entity) :
    collectPaths catPre entities = (entities.filterMap (keptPath catPre)).toFinset := by
  rw [collectPaths, foldl_collectStep, Finset.empty_union]

lemma keptPath_some (pre : String) (hpre : pre.data ≠ []) (e : Entity) :
    keptPath (some pre) e =
      e.file_path.bind (fun p => if strStartsWith p pre then some p else none) := by
  have ht : truthyOpt (some pre) = true := by
    dsimp only [truthyOpt]
    cases hd : pre.data with
    | nil => exact absurd hd hpre
    | cons x xs => rfl
  rcases e with ⟨_ | p⟩
  · rfl
  · dsimp only [keptPath, Option.bind]
    rw [ht]
    by_cases h1 : p.data.isEmpty
    · have hpd : p.data = [] := List.isEmpty_iff.mp h1
      have hsw : strStartsWith p pre = false := by
        unfold strStartsWith
        rw [hpd]
        cases hd : pre.data with
        | nil => exact absurd hd hpre
        | cons x xs => rfl
      simp [h1, hsw]
    · simp [h1]

lemma filterMap_keptPath (pre : String) (hpre : pre.data ≠ [])
    (entities : List Entity) :
    entities.filterMap (keptPath (some pre)) =
      (entities.filterMap (fun e => e.file_path)).filter
        (fun p => strStartsWith p pre) := by
  induction entities with
  | nil => rfl
  | cons e es ih =>
    rw [List.filterMap_cons, List.filterMap_cons, keptPath_some pre hpre]
    rcases e with ⟨_ | p⟩
    · exact ih
    · by_cases hs : strStartsWith p pre <;> simp [hs, ih, List.filter_cons]

/-- **C7**: against a store answering offset/limit queries from a fixed
snapshot, the bulk scan paginates in batches of 1000 until the reported
count is reached or a short batch is returned, and retrieves every
record of the collection, whatever its size; with a truthy category
argument, `get_all_file_paths` applies the filter client-side and
returns exactly the stored paths that start with that string. -/
theorem scan_pagination_complete (store : List Entity) (pre : String)
    (hpre : pre ≠ "") :
    getAllEntitiesIter (pageQuery store) store.length = .ok store ∧
    getAllFilePaths (pageQuery store) store.length (some pre) =
      ((store.filterMap (fun e => e.file_path)).filter
        (fun p => strStartsWith p pre)).toFinset := by
  have hdata : pre.data ≠ [] := by
    intro h
    apply hpre
    cases pre with
    | mk cs => cases h; rfl
  have hiter : getAllEntitiesIter (pageQuery store) store.length = .ok store := by
    unfold getAllEntitiesIter
    by_cases h0 : store.length = 0
    · rw [if_pos h0, List.length_eq_zero.mp h0]
    · rw [if_neg h0,
        iterLoop_pageQuery store (store.length - 0) 0 [] rfl (Nat.zero_le _),
        List.drop_zero, List.nil_append]
  refine ⟨hiter, ?_⟩
  unfold getAllFilePaths
  rw [hiter]
  show collectPaths (some pre) store = _
  rw [collectPaths_filterMap, filterMap_keptPath pre hdata]

/-- Witness for **C7**: a three-record store (one of them without a
`file_path`) scanned with the category `dogs/` yields exactly the stored
path under that category. -/
theorem scan_pagination_complete_witness :
    ("dogs/" : String) ≠ "" ∧
    getAllFilePaths (pageQuery [⟨some "dogs/b.jpg"⟩, ⟨some "cats/a.png"⟩, ⟨none⟩])
        3 (some "dogs/") = {"dogs/b.jpg"} :=
  ⟨by decide,
   ((scan_pagination_complete
      [⟨some "dogs/b.jpg"⟩, ⟨some "cats/a.png"⟩, ⟨none⟩] "dogs/"
      (by decide)).2).trans (by decide)⟩

/-- **C9**: `get_all_file_paths` never raises — a failing scan is caught
internally and the set collected so far (always empty, since the scan
completes before collection starts) is returned, so the caller
`index_images` cannot distinguish a failed scan from an empty indexed
set, its error branch is unreachable through this call, and every local
file lands in `to_add` (with nothing in `to_delete`). -/
theorem scan_failure_absorbed (query : Nat → Nat → Except Unit (List Entity))
    (total : Nat) (catPre : Option String) (localS : Finset String)
    (h : getAllEntitiesIter query total = .error ()) :
    getAllFilePaths query total catPre = ∅ ∧
    toAdd localS (getAllFilePaths query total catPre) = localS ∧
    toDelete localS (getAllFilePaths query total catPre) = ∅ := by
  have h1 : getAllFilePaths query total catPre = ∅ := by
    unfold getAllFilePaths
    rw [h]
  refine ⟨h1, ?_, ?_⟩
  · rw [h1]
    exact Finset.sdiff_empty
  · rw [h1]
    exact Finset.empty_sdiff localS

/-- A Milvus client whose `query` always raises. -/
def failQuery : Nat → Nat → Except Unit (List Entity) := fun _ _ => .error ()

lemma getAllEntitiesIter_failQuery : getAllEntitiesIter failQuery 1 = .error () := by
  rw [getAllEntitiesIter, if_neg (by omega), iterLoop, dif_pos (by omega)]
  rfl

/-- Witness for **C9**: with a store whose scan raises on the first
page, `get_all_file_paths` returns the empty set and the one local file
becomes a member of `to_add`. -/
theorem scan_failure_absorbed_witness :
    getAllFilePaths failQuery 1 none = ∅ ∧
    toAdd {"a.png"} (getAllFilePaths failQuery 1 none) = {"a.png"} ∧
    toDelete {"a.png"} (getAllFilePaths failQuery 1 none) = ∅ :=
  scan_failure_absorbed failQuery 1 none {"a.png"} getAllEntitiesIter_failQuery

/-! ## Add phase of the reconciliation (`app/main.py` lines 101-132)

The embedding provider is a parameter `embed` returning the vector or an
exception; `insert_vectors` is the store adapter's bulk insert, which
raises on failure.  `addPhase` returns the pair
`(added_count, failed_add_count)`. -/

/-- Whether an external call succeeded. -/
def isOkE {ε α : Type} (e : Except ε α) : Bool :=
  match e with
  | .ok _ => true
  | .error _ => false

/-- The embedding loop of `index_images` (`app/main.py` lines 105-122):
build `embeddings_to_index` and `filenames_to_index` in order, counting
each per-item failure and continuing with the remaining files. -/
def embedLoop {α : Type} (embed : String → Except Unit α)
    (paths : List String) : List α × List String × Nat :=
  paths.foldl (fun acc p =>
    match embed p with
    | .ok e => (acc.1 ++ [e], acc.2.1 ++ [p], acc.2.2)
    | .error _ => (acc.1, acc.2.1, acc.2.2 + 1)) ([], [], 0)

/-- The whole add phase (`app/main.py` lines 101-132): skip when
`files_to_add` is empty; embed each file; if anything was embedded, one
bulk `insert_vectors` call sets `added_count` on success and on failure
adds the whole batch to `failed_add_count` with `added_count = 0`. -/
def addPhase {α : Type} (embed : String → Except Unit α)
    (insert_vectors : List α → List String → Except Unit (List Nat))
    (toAddList : List String) : Nat × Nat :=
  if toAddList.isEmpty then (0, 0)
  else
    let r := embedLoop embed toAddList
    if r.1.isEmpty then (0, r.2.2)
    else
      match insert_vectors r.1 r.2.1 with
      | .ok _ => (r.2.1.length, r.2.2)
      | .error _ => (0, r.2.2 + r.2.1.length)

lemma embedLoop_foldl {α : Type} (embed : String → Except Unit α) :
    ∀ (paths : List String) (es : List α) (ns : List String) (f : Nat),
      paths.foldl (fun acc p =>
        match embed p with
        | .ok e => (acc.1 ++ [e], acc.2.1 ++ [p], acc.2.2)
        | .error _ => (acc.1, acc.2.1, acc.2.2 + 1)) (es, ns, f) =
      (es ++ paths.filterMap (fun p => (embed p).toOption),
       ns ++ paths.filter (fun p => isOkE (embed p)),
       f + (paths.filter (fun p => !isOkE (embed p))).length) := by
  intro paths
  induction paths with
  | nil => intro es ns f; simp
  | cons p ps ih =>
    intro es ns f
    rw [List.foldl_cons]
    cases hp : embed p with
    | ok e =>
      show List.foldl _ (es ++ [e], ns ++ [p], f) ps = _
      rw [ih]
      simp only [List.filterMap_cons, List.filter_cons, hp, Except.toOption, isOkE,
        Bool.not_true, Bool.not_false, Bool.false_eq_true, if_false, if_true,
        List.append_assoc, List.singleton_append, List.length_cons]
    | error u =>
      show List.foldl _ (es, ns, f + 1) ps = _
      rw [ih]
      simp only [List.filterMap_cons, List.filter_cons, hp, Except.toOption, isOkE,
        Bool.not_true, Bool.not_false, Bool.false_eq_true, if_false, if_true,
        List.length_cons, Prod.mk.injEq, true_and]
      omega

lemma length_filter_not_add {β : Type} (l : List β) (q : β → Bool) :
    (l.filter (fun p => !q p)).length + (l.filter q).length = l.length := by
  induction l with
  | nil => rfl
  | cons a as ih =>
    rw [List.filter_cons, List.filter_cons]
    cases hq : q a <;> simp [hq] <;> omega

/-- **C8**: the embedding loop processes every file of `to_add` —
`filenames_to_index` is exactly the sublist of successfully embedded
files, in order, and `failed_add_count` counts the embedding failures,
one bad file never aborting the rest; and when the single bulk-insert
call fails, the add phase reports 0 added and `|to_add|` failed
(embedding failures plus the whole insert batch). -/
theorem add_phase_failures {α : Type} (embed : String → Except Unit α)
    (insert_vectors : List α → List String → Except Unit (List Nat))
    (toAddList : List String) :
    (embedLoop embed toAddList).2.1 =
        toAddList.filter (fun p => isOkE (embed p)) ∧
    (embedLoop embed toAddList).2.2 =
        (toAddList.filter (fun p => !isOkE (embed p))).length ∧
    ((∀ es ns, insert_vectors es ns = .error ()) →
      addPhase embed insert_vectors toAddList = (0, toAddList.length)) := by
  have hloop := embedLoop_foldl embed toAddList [] [] 0
  have h1 : (embedLoop embed toAddList).2.1 =
      toAddList.filter (fun p => isOkE (embed p)) := by
    rw [embedLoop, hloop]
    simp
  have h2 : (embedLoop embed toAddList).2.2 =
      (toAddList.filter (fun p => !isOkE (embed p))).length := by
    rw [embedLoop, hloop]
    simp
  refine ⟨h1, h2, ?_⟩
  intro hins
  unfold addPhase
  by_cases hnil : toAddList.isEmpty
  · rw [if_pos hnil, List.isEmpty_iff.mp hnil]
    rfl
  · rw [if_neg hnil]
    by_cases hes : (embedLoop embed toAddList).1.isEmpty
    · simp only [hes, if_true]
      have hall : ∀ p ∈ toAddList, (embed p).toOption = none := by
        have := List.isEmpty_iff.mp hes
        rw [embedLoop, hloop] at this
        simp only [List.nil_append] at this
        exact List.filterMap_eq_nil.mp this
      have hfail : toAddList.filter (fun p => !isOkE (embed p)) = toAddList := by
        rw [List.filter_eq_self]
        intro a ha
        have := hall a ha
        cases he : embed a with
        | ok e => rw [he] at this; exact absurd this (by simp [Except.toOption])
        | error u => rfl
      rw [h2, hfail]
    · simp only [hes, if_false, Bool.false_eq_true]
      rw [hins]
      have := length_filter_not_add toAddList (fun p => isOkE (embed p))
      rw [h1, h2]
      refine Prod.ext rfl ?_
      simp only
      omega

/-- An embedding provider that fails on `bad.png` only. -/
def embedW : String → Except Unit (List Int) :=
  fun p => if p = "bad.png" then .error () else .ok [0]

/-- A bulk insert that always raises. -/
def insertFailW : List (List Int) → List String → Except Unit (List Nat) :=
  fun _ _ => .error ()

/-- Witness for **C8**: of three files one fails to embed and is
counted, the other two are still processed; with the failing bulk
insert, the add phase reports 0 added and 3 failed. -/
theorem add_phase_failures_witness :
    (embedLoop embedW ["good.png", "bad.png", "ok.png"]).2.1 =
        ["good.png", "ok.png"] ∧
    (embedLoop embedW ["good.png", "bad.png", "ok.png"]).2.2 = 1 ∧
    addPhase embedW insertFailW ["good.png", "bad.png", "ok.png"] = (0, 3) :=
  ⟨((add_phase_failures embedW insertFailW
      ["good.png", "bad.png", "ok.png"]).1).trans (by decide),
   ((add_phase_failures embedW insertFailW
      ["good.png", "bad.png", "ok.png"]).2.1).trans (by decide),
   (add_phase_failures embedW insertFailW
      ["good.png", "bad.png", "ok.png"]).2.2 (fun es ns => rfl)⟩

/-! ## Delete by file paths (`app/services/milvus_service.py` lines 100-155) -/

/-- The quote character escaped by the source (`"'"`). -/
def quoteChar : Char := Char.ofNat 39

/-- Python `p.replace("'", "''")` over the characters of `p`
(`milvus_service.py` line 112). -/
def escQuotes (cs : List Char) : List Char :=
  cs.flatMap (fun c => if c = quoteChar then [quoteChar, quoteChar] else [c])

/-- `f"'{sanitized_p}'"` (`milvus_service.py` line 113): the quoted
literal for one path. -/
def quotedLit (p : String) : List Char :=
  quoteChar :: (escQuotes p.data ++ [quoteChar])

/-- `", ".join(sanitized_expr_paths)` (`milvus_service.py` line 115). -/
def joinLits : List String → List Char
  | [] => []
  | [p] => quotedLit p
  | p :: ps => quotedLit p ++ ',' :: ' ' :: joinLits ps

/-- `query_expr_for_ids = f"file_path in [{file_path_expr_str}]"`
(`milvus_service.py` line 116). -/
def buildExpr (batch : List String) : String :=
  "file_path in [" ++ (⟨joinLits batch⟩ : String) ++ "]"

/-- The Milvus client as seen by `delete_vectors_by_file_paths`:
`query` takes the filter expression and the `limit` argument and returns
the matching ids or raises; `del` takes the id list and returns the list
of deleted primary keys or raises. -/
structure DeleteClient where
  query : String → Nat → Except Unit (List Nat)
  del : List Nat → Except Unit (List Nat)

/-- The `file_paths[i:i + batch_size]` slices with `batch_size = 500`
(`milvus_service.py` lines 105-108). -/
def chunk500 (paths : List String) : List (List String) :=
  if h : paths.isEmpty then []
  else paths.take 500 :: chunk500 (paths.drop 500)
termination_by paths.length
decreasing_by
  have hne : paths ≠ [] := by
    intro h0
    rw [h0] at h
    exact h rfl
  have hpos : 0 < paths.length := List.length_pos.mpr hne
  rw [List.length_drop]
  omega

/-- One iteration of the batch loop (`milvus_service.py` lines 107-152):
build the filter expression, query the ids with
`limit = len(batch_paths) + 5`, keep the truthy ones; contribute nothing
and continue on a query exception or when no ids were found; otherwise
delete by ids, counting `len(delete_result)` on success and nothing on
an exception. -/
def processBatch (c : DeleteClient) (batch : List String) : Nat :=
  match c.query (buildExpr batch) (batch.length + 5) with
  | .error _ => 0
  | .ok res =>
    let ids := res.filter (fun i => i != 0)
    if ids.isEmpty then 0
    else
      match c.del ids with
      | .ok pks => pks.length
      | .error _ => 0

/-- `delete_vectors_by_file_paths` (`milvus_service.py` lines 100-155):
0 for an empty path list, otherwise the fold of the per-batch
contributions into `deleted_count_total`. -/
def delete_vectors_by_file_paths (c : DeleteClient) (paths : List String) : Nat :=
  if paths.isEmpty then 0
  else (chunk500 paths).foldl (fun acc b => acc + processBatch c b) 0

lemma foldl_add_map {β : Type} (f : β → Nat) :
    ∀ (l : List β) (acc : Nat), l.foldl (fun a b => a + f b) acc = acc + (l.map f).sum := by
  intro l
  induction l with
  | nil => intro acc; simp
  | cons b bs ih =>
    intro acc
    rw [List.foldl_cons, ih, List.map_cons, List.sum_cons]
    omega

lemma chunk500_facts :
    ∀ (n : Nat) (paths : List String), paths.length ≤ n →
      (∀ b ∈ chunk500 paths, b.length ≤ 500) ∧ (chunk500 paths).flatten = paths := by
  intro n
  induction n with
  | zero =>
    intro paths h
    have hnil : paths = [] := List.length_eq_zero.mp (Nat.le_zero.mp h)
    subst hnil
    rw [chunk500]
    simp
  | succ n ih =>
    intro paths h
    by_cases hp : paths.isEmpty
    · have hnil : paths = [] := List.isEmpty_iff.mp hp
      subst hnil
      rw [chunk500]
      simp
    · have hne : paths ≠ [] := fun h0 => hp (by rw [h0]; rfl)
      have hpos : 0 < paths.length := List.length_pos.mpr hne
      have hrest : (paths.drop 500).length ≤ n := by
        rw [List.length_drop]
        omega
      rw [chunk500, dif_neg hp]
      refine ⟨?_, ?_⟩
      · intro b hb
        rcases List.mem_cons.mp hb with hbt | hb2
        · rw [hbt, List.length_take]
          exact min_le_left 500 paths.length
        · exact (ih (paths.drop 500) hrest).1 b hb2
      · rw [List.flatten_cons, (ih (paths.drop 500) hrest).2, List.take_append_drop]

lemma processBatch_eq (q : String → Nat → Except Unit (List Nat))
    (d : List Nat → Except Unit (List Nat)) (b : List String) :
    processBatch ⟨q, d⟩ b =
      match q (buildExpr b) (b.length + 5) with
      | .error _ => 0
      | .ok res =>
          if (res.filter (fun i => i != 0)).isEmpty then 0
          else
            match d (res.filter (fun i => i != 0)) with
            | .ok pks => pks.length
            | .error _ => 0 := rfl

/-- **C5**: `delete_vectors_by_file_paths` processes the path list in
slices of at most 500 (the slices partition the input), its return value
is the sum over all batches of the per-batch counts confirmed by the
store, a batch whose id lookup finds no (truthy) identifiers contributes
0 without the delete step being consulted, a confirmed delete
contributes the store-confirmed `len(delete_result)`, and a failing
query or delete contributes 0 for that batch only — the remaining
batches still appear in the sum. -/
theorem delete_batches (c : DeleteClient) (paths : List String) :
    delete_vectors_by_file_paths c paths =
      ((chunk500 paths).map (processBatch c)).sum ∧
    (∀ b ∈ chunk500 paths, b.length ≤ 500) ∧
    (chunk500 paths).flatten = paths ∧
    (∀ (q : String → Nat → Except Unit (List Nat)) (d₁ d₂ : List Nat → Except Unit (List Nat))
        (b : List String) (res : List Nat),
      q (buildExpr b) (b.length + 5) = .ok res →
      (res.filter (fun i => i != 0)).isEmpty = true →
      processBatch ⟨q, d₁⟩ b = 0 ∧ processBatch ⟨q, d₁⟩ b = processBatch ⟨q, d₂⟩ b) ∧
    (∀ (q : String → Nat → Except Unit (List Nat)) (d : List Nat → Except Unit (List Nat))
        (b : List String) (res pks : List Nat),
      q (buildExpr b) (b.length + 5) = .ok res →
      (res.filter (fun i => i != 0)).isEmpty = false →
      d (res.filter (fun i => i != 0)) = .ok pks →
      processBatch ⟨q, d⟩ b = pks.length) := by
  have hchunk := chunk500_facts paths.length paths le_rfl
  refine ⟨?_, hchunk.1, hchunk.2, ?_, ?_⟩
  · unfold delete_vectors_by_file_paths
    by_cases hp : paths.isEmpty
    · have hnil : paths = [] := List.isEmpty_iff.mp hp
      subst hnil
      simp [chunk500]
    · rw [if_neg hp, foldl_add_map]
      omega
  · intro q d₁ d₂ b res hq he
    simp [processBatch_eq, hq, he]
  · intro q d b res pks hq he hd
    simp [processBatch_eq, hq, he, hd]

/-- A client whose id lookup only ever returns the falsy id 0 and whose
delete echoes its argument. -/
def clientW : DeleteClient :=
  ⟨fun _ _ => .ok [0], fun ids => .ok ids⟩

/-- Witness for **C5**: with one batch whose lookup yields only the
falsy id 0, the delete step is skipped and the total is the (empty)
per-batch sum. -/
theorem delete_batches_witness :
    delete_vectors_by_file_paths clientW ["a.png"] =
      ((chunk500 ["a.png"]).map (processBatch clientW)).sum ∧
    processBatch clientW ["a.png"] = 0 :=
  ⟨(delete_batches clientW ["a.png"]).1,
   ((delete_batches clientW ["a.png"]).2.2.2.1 clientW.query clientW.del clientW.del
      ["a.png"] [0] rfl rfl).1⟩

/-! ## Filter-expression escaping (C6)

The source escapes quote characters by doubling them inside
single-quoted literals (`milvus_service.py` lines 110-116).  The store
evaluating the expression is an external collaborator, so its
documented behaviour is modelled from the spec: a `file_path in [...]`
expression is a list of single-quoted string literals in which a
doubled quote denotes one literal quote character, matched exactly
against the `file_path` attribute; a malformed expression is a
filter-syntax error (`none`). -/

/-- Modelled from the spec: scan one single-quoted literal after its
opening quote; a doubled quote denotes one literal quote character;
returns the content with the remainder after the closing quote, or
`none` on an unterminated literal. -/
def scanLit : List Char → Option (List Char × List Char)
  | [] => none
  | c :: rest =>
    if c = quoteChar then
      match rest with
      | c2 :: rest2 =>
        if c2 = quoteChar then (scanLit rest2).map (fun q => (quoteChar :: q.1, q.2))
        else some ([], rest)
      | [] => some ([], [])
    else (scanLit rest).map (fun q => (c :: q.1, q.2))

/-- Modelled from the spec: parse the bracketed literal list of a
`file_path in [...]` expression (everything after the opening `[`).
The `fuel` argument only bounds the recursion; `parseLits` supplies a
sufficient amount. -/
def parseLitsF : Nat → List Char → Option (List (List Char))
  | _, [] => none
  | fuel, c :: rest =>
    if c = ']' then (if rest.isEmpty then some [] else none)
    else if c = quoteChar then
      match fuel with
      | 0 => none
      | fuel + 1 =>
        match scanLit rest with
        | some (lit, rem) =>
          match rem with
          | [] => none
          | c2 :: rem2 =>
            if c2 = ']' then (if rem2.isEmpty then some [lit] else none)
            else
              match rem2 with
              | [] => none
              | c3 :: rem3 =>
                if c2 = ',' ∧ c3 = ' ' then
                  (parseLitsF fuel rem3).map (fun ls => lit :: ls)
                else none
        | none => none
    else none

/-- Modelled from the spec: parse a bracketed literal list. -/
def parseLits (cs : List Char) : Option (List (List Char)) :=
  parseLitsF cs.length cs

/-- Remove an expected leading character sequence, failing if absent. -/
def dropPfx : List Char → List Char → Option (List Char)
  | [], cs => some cs
  | _ :: _, [] => none
  | p :: ps, c :: cs => if c = p then dropPfx ps cs else none

/-- Modelled from the spec: parse a whole `file_path in [...]` filter
expression into the list of path literals it matches; `none` is a
filter-syntax error. -/
def parseExpr (expr : String) : Option (List String) :=
  match dropPfx ("file_path in [").data expr.data with
  | some rest => (parseLits rest).map (fun ls => ls.map (fun l => (⟨l⟩ : String)))
  | none => none

/-- Modelled from the spec: whether the store's identifier lookup for
`expr` selects the record whose `file_path` attribute is `attr` —
exactly the parsed literals match. -/
def exprSelects (expr attr : String) : Bool :=
  match parseExpr expr with
  | some ls => ls.contains attr
  | none => false

lemma scanLit_esc (cs : List Char) :
    ∀ rest : List Char, rest.head? ≠ some quoteChar →
      scanLit (escQuotes cs ++ quoteChar :: rest) = some (cs, rest) := by
  induction cs with
  | nil =>
    intro rest h
    cases rest with
    | nil => simp [escQuotes, scanLit]
    | cons c2 rest2 =>
      have hc2 : ¬ c2 = quoteChar := by
        intro he
        exact h (by rw [he]; rfl)
      simp [escQuotes, scanLit, hc2]
  | cons c cs ih =>
    intro rest h
    by_cases hc : c = quoteChar
    · subst hc
      have hesc : escQuotes (quoteChar :: cs) = quoteChar :: quoteChar :: escQuotes cs := by
        simp [escQuotes]
      rw [hesc, List.cons_append, List.cons_append]
      simp [scanLit, ih rest h]
    · have hesc : escQuotes (c :: cs) = c :: escQuotes cs := by
        simp [escQuotes, hc]
      rw [hesc, List.cons_append, scanLit.eq_def]
      dsimp only
      rw [if_neg hc, ih rest h]
      rfl


lemma parseLitsF_join :
    ∀ (batch : List String) (fuel : Nat), batch.length ≤ fuel →
      parseLitsF fuel (joinLits batch ++ [']']) =
        some (batch.map (fun p => p.data)) := by
  intro batch
  induction batch with
  | nil =>
    intro fuel hf
    show parseLitsF fuel [']'] = some []
    cases fuel <;> rfl
  | cons p ps ih =>
    intro fuel hf
    cases fuel with
    | zero => simp at hf
    | succ f =>
      have hq : ¬ (quoteChar = ']') := by decide
      cases ps with
      | nil =>
        show parseLitsF (f + 1) (quotedLit p ++ [']']) = some [p.data]
        rw [quotedLit, List.cons_append, List.append_assoc, List.singleton_append,
          parseLitsF.eq_3, if_neg hq, if_pos rfl,
          scanLit_esc p.data ([']'] : List Char) (by decide)]
        rfl
      | cons p2 ps2 =>
        show parseLitsF (f + 1) ((quotedLit p ++ ',' :: ' ' :: joinLits (p2 :: ps2)) ++ [']'])
            = some (p.data :: (p2 :: ps2).map (fun p => p.data))
        have harr : (quotedLit p ++ ',' :: ' ' :: joinLits (p2 :: ps2)) ++ [']'] =
            quoteChar ::
              (escQuotes p.data ++ quoteChar :: ',' :: ' ' :: (joinLits (p2 :: ps2) ++ [']'])) := by
          simp [quotedLit, List.append_assoc]
        have hhd : (',' :: ' ' :: (joinLits (p2 :: ps2) ++ [']'])).head? ≠ some quoteChar := by
          intro hcon
          rw [List.head?_cons, Option.some.injEq] at hcon
          exact absurd hcon (by decide)
        rw [harr, parseLitsF.eq_3, if_neg hq, if_pos rfl,
          scanLit_esc p.data (',' :: ' ' :: (joinLits (p2 :: ps2) ++ [']'])) hhd]
        have hih := ih f (by simp at hf ⊢; omega)
        dsimp only
        rw [if_neg (by decide), if_pos ⟨rfl, rfl⟩, hih]
        rfl

lemma quotedLit_length_ge (p : String) : 2 ≤ (quotedLit p).length := by
  simp [quotedLit]

lemma joinLits_length_ge :
    ∀ batch : List String, batch.length ≤ (joinLits batch ++ [']']).length := by
  intro batch
  induction batch with
  | nil => simp [joinLits]
  | cons p ps ih =>
    cases ps with
    | nil =>
      show 1 ≤ (quotedLit p ++ [']']).length
      have h1 := quotedLit_length_ge p
      simp [List.length_append]
    | cons p2 ps2 =>
      show (p :: p2 :: ps2).length ≤
        ((quotedLit p ++ ',' :: ' ' :: joinLits (p2 :: ps2)) ++ [']']).length
      have h1 := quotedLit_length_ge p
      simp only [List.length_append, List.length_cons] at ih ⊢
      omega

lemma strMkData (p : String) : (⟨p.data⟩ : String) = p := by
  cases p
  rfl

lemma strDataAppend (a b : String) : (a ++ b).data = a.data ++ b.data := by
  cases a
  cases b
  rfl

lemma dropPfx_append : ∀ (p cs : List Char), dropPfx p (p ++ cs) = some cs := by
  intro p
  induction p with
  | nil => intro cs; rfl
  | cons a as ih =>
    intro cs
    show dropPfx (a :: as) (a :: (as ++ cs)) = some cs
    simp [dropPfx, ih]

/-- **C6**: for every batch of paths — quote characters included — the
filter expression built by `delete_vectors_by_file_paths` parses without
a filter-syntax error back to exactly that batch, so the lookup selects
a record iff its path attribute literally equals one of the given
paths. -/
theorem delete_filter_expr_exact (batch : List String) (attr : String) :
    parseExpr (buildExpr batch) = some batch ∧
    (exprSelects (buildExpr batch) attr = true ↔ attr ∈ batch) := by
  have hdata : (buildExpr batch).data =
      ("file_path in [").data ++ (joinLits batch ++ [']']) := by
    rw [buildExpr, strDataAppend, strDataAppend, List.append_assoc]
  have h1 : parseExpr (buildExpr batch) = some batch := by
    unfold parseExpr
    rw [hdata, dropPfx_append]
    show (parseLits (joinLits batch ++ [']'])).map
      (fun ls => ls.map (fun l => (⟨l⟩ : String))) = some batch
    have hmap : ∀ l : List String, l.map (fun p => (⟨p.data⟩ : String)) = l := by
      intro l
      induction l with
      | nil => rfl
      | cons q qs ihq => rw [List.map_cons, strMkData, ihq]
    rw [parseLits, parseLitsF_join batch _ (joinLits_length_ge batch)]
    show some ((batch.map (fun p => p.data)).map (fun l => (⟨l⟩ : String))) = some batch
    rw [List.map_map]
    show some (batch.map (fun p => (⟨p.data⟩ : String))) = some batch
    rw [hmap batch]
  refine ⟨h1, ?_⟩
  simp only [exprSelects, h1]
  exact List.elem_iff

/-! ## Search result filtering and fallback (`app/main.py` lines 153-234) -/

/-- One search hit as assembled by `search_vectors`
(`milvus_service.py` lines 188-203); only `file_path` is consulted by
the filtering code, and it may be absent. -/
structure SearchHit where
  file_path : Option String
deriving DecidableEq

/-- `construct_image_url` (`app/main.py` lines 33-40). -/
def construct_image_url (imageDir filename base : String) : String :=
  (if strEndsWith base "/" then base else base ++ "/") ++ imageDir ++ "/" ++ filename

/-- The three identical loops collecting every truthy `file_path` as a
URL (`app/main.py` lines 200-213). -/
def truthyUrls (imageDir base : String) (results : List SearchHit) : List String :=
  results.filterMap (fun r =>
    match r.file_path with
    | some p =>
        if !p.data.isEmpty then some (construct_image_url imageDir p base) else none
    | none => none)

/-- The `image_urls` built by the main filtering block of
`search_images` (`app/main.py` lines 182-213): nothing when the raw
results are empty; with a truthy category whose stripped form is
nonempty, only results whose truthy path starts with the
`clean_category + os.path.sep` filter; otherwise every truthy path. -/
def mainUrls (imageDir base : String) (category : Option String)
    (results : List SearchHit) : List String :=
  if results.isEmpty then []
  else if truthyOpt category then
    let clean := stripSep (category.getD "")
    if !clean.data.isEmpty then
      results.filterMap (fun r =>
        match r.file_path with
        | some p =>
            if !p.data.isEmpty then
              if strStartsWith p (clean ++ "/") then
                some (construct_image_url imageDir p base)
              else none
            else none
        | none => none)
    else truthyUrls imageDir base results
  else truthyUrls imageDir base results

/-- The fallback block (`app/main.py` lines 215-231), entered when
`image_urls` is empty but the raw results are not: when some result has
a truthy path, the first such result is returned as the single fallback
URL; when none has one, only a warning is logged. -/
def fallbackUrls (imageDir base : String) (category : Option String)
    (results : List SearchHit) : List String :=
  let anyPath := results.any (fun r => truthyOpt r.file_path)
  let hasMsg := truthyOpt category && anyPath
  if !hasMsg && !anyPath then []
  else
    match results.find? (fun r => truthyOpt r.file_path) with
    | some r =>
      match r.file_path with
      | some p => [construct_image_url imageDir p base]
      | none => []
    | none => []

/-- The final `image_urls` returned by `search_images`
(`app/main.py` lines 182-234). -/
def searchUrls (imageDir base : String) (category : Option String)
    (results : List SearchHit) : List String :=
  let urls := mainUrls imageDir base category results
  if urls.isEmpty && !results.isEmpty then
    urls ++ fallbackUrls imageDir base category results
  else urls

/-- **C4**: when a search is run with a category whose prefix filter
matches none of the raw nearest-neighbor results and the raw result list
is non-empty (every raw result carrying a truthy path, as every stored
record does), the operation returns exactly one URL — that of the first,
i.e. nearest, raw result, irrespective of its category. -/
theorem search_category_fallback (imageDir base c : String) (h0 : SearchHit)
    (t : List SearchHit) (hclean : stripSep c ≠ "")
    (hall : ∀ r ∈ h0 :: t, truthyOpt r.file_path = true ∧
        ∀ p, r.file_path = some p → strStartsWith p (stripSep c ++ "/") = false) :
    searchUrls imageDir base (some c) (h0 :: t) =
      [construct_image_url imageDir (h0.file_path.getD "") base] := by
  have hcne : c ≠ "" := by
    intro hc0
    apply hclean
    rw [hc0]
    rfl
  have hcd : c.data ≠ [] := by
    intro hd
    apply hcne
    cases c with
    | mk cs => cases hd; rfl
  have hcb : (!c.data.isEmpty) = true := by
    cases hx : c.data with
    | nil => exact absurd hx hcd
    | cons x xs => rfl
  have hcleand : (stripSep c).data ≠ [] := by
    intro hd
    apply hclean
    cases hs : stripSep c with
    | mk cs =>
      rw [hs] at hd
      cases hd
      rfl
  have hcleanb : (!(stripSep c).data.isEmpty) = true := by
    cases hx : (stripSep c).data with
    | nil => exact absurd hx hcleand
    | cons x xs => rfl
  have htru : truthyOpt (some c) = true := hcb
  have hmain : mainUrls imageDir base (some c) (h0 :: t) = [] := by
    unfold mainUrls
    simp only [List.isEmpty_cons, Bool.false_eq_true, if_false, htru, if_true,
      Option.getD_some, hcleanb]
    apply List.filterMap_eq_nil.mpr
    intro r hr
    obtain ⟨ht, hsw⟩ := hall r hr
    cases hfp : r.file_path with
    | none => rfl
    | some p =>
      have hpt : (!p.data.isEmpty) = true := by
        rw [hfp] at ht
        exact ht
      have hws := hsw p hfp
      simp [hpt, hws]
  obtain ⟨ht0, _⟩ := hall h0 (List.mem_cons_self h0 t)
  have hfall : fallbackUrls imageDir base (some c) (h0 :: t) =
      [construct_image_url imageDir (h0.file_path.getD "") base] := by
    have hany : (h0 :: t).any (fun r => truthyOpt r.file_path) = true := by
      rw [List.any_cons, ht0, Bool.true_or]
    have hfind : List.find? (fun r => truthyOpt r.file_path) (h0 :: t) = some h0 := by
      simp only [List.find?_cons, ht0]
    unfold fallbackUrls
    rw [hany, hfind]
    simp only [htru, Bool.and_true, Bool.not_true, Bool.and_false, Bool.false_eq_true,
      if_false]
    cases hfp : h0.file_path with
    | none =>
      rw [hfp] at ht0
      exact absurd ht0 (by decide)
    | some p => simp only [hfp, Option.getD_some]
  unfold searchUrls
  rw [hmain, hfall]
  rfl

/-- Witness for **C4**: one raw result under `dogs/`, searched with
category `cats`: the filter matches nothing and the single nearest
result comes back as the fallback. -/
theorem search_category_fallback_witness :
    searchUrls "images" "http://h/" (some "cats") [⟨some "dogs/b.jpg"⟩] =
      [construct_image_url "images" "dogs/b.jpg" "http://h/"] := by
  have hall : ∀ r ∈ ([⟨some "dogs/b.jpg"⟩] : List SearchHit),
      truthyOpt r.file_path = true ∧
      ∀ p, r.file_path = some p →
        strStartsWith p (stripSep "cats" ++ "/") = false := by
    intro r hr
    rw [List.mem_singleton] at hr
    subst hr
    refine ⟨by decide, ?_⟩
    intro p hp
    cases hp
    decide
  exact search_category_fallback "images" "http://h/" "cats" ⟨some "dogs/b.jpg"⟩ []
    (by decide) hall
